import Mathlib

/-!
Verification of the harfbuzz repacker core (src/hb-repacker.hh).

The object graph, both topological sorts (Kahn and shortest-distance), the
overflow oracle, the re-emission pass and the driver are embedded as
executable Lean functions, translated from the C++ source.  Machine
integers are modelled as Nat/Int with explicit reductions mod 2^32 where
the source uses 32-bit unsigned arithmetic, and with an explicit
truncation to signed 32 bits where the source narrows an int64_t into an
`int` variable.  The C++ asserts become an explicit error type; assertion
failure is modelled as returning that error.  Payloads are modelled as
byte lists; an object's size (tail - head in the source) is the length of
its byte list.
-/

/-- The anchor (whence_t in the source) a link's offset is measured against. -/
inductive Whence where
  | head
  | tail
  | absolute
deriving DecidableEq, Repr

/-- A typed offset link, as in hb_serialize_context_t::object_t::link_t:
target object index, byte position of the offset field inside the parent
payload, field width and signedness, anchor, and bias. -/
structure Link where
  objidx : Nat
  position : Nat
  is_wide : Bool
  is_signed : Bool
  whence : Whence
  bias : Nat
deriving DecidableEq, Repr

/-- An object: an opaque byte payload plus outbound links.  The source keeps
head/tail pointers into a borrowed buffer; here the payload bytes are the
list and the size (tail - head) is its length. -/
structure Object where
  bytes : List Nat
  links : List Link
deriving DecidableEq, Repr

def defaultObject : Object := { bytes := [], links := [] }

/-- The fatal error surface of the core.  The source uses asserts; each
assert site is mapped to a constructor.  fuelOut is an artifact of the
fuel-based loop encoding and is proved unreachable under the structural
hypotheses of the theorems below. -/
inductive RepackError where
  | graphStructure
  | remapMissing
  | offsetUnderflow
  | fuelOut
deriving DecidableEq, Repr

/-- 32-bit unsigned decrement: hb_map_t values are uint32_t, so
`edge_count.get (x) - 1` wraps at zero.  This is (n + 2^32 - 1) % 2^32,
written without the huge addend. -/
def hbDec (n : Nat) : Nat :=
  if n % 4294967296 = 0 then 4294967295 else n % 4294967296 - 1

/-- Truncation of a 64-bit signed value into a C `int` (32-bit, two's
complement wrap), as happens at `int next_distance = (*distance_to)[next_idx]`. -/
def toInt32 (x : Int) : Int := (x + 2147483648) % 4294967296 - 2147483648

/-- INT64_MAX, the initial "infinity" of the distance vector. -/
def maxI64 : Int := 9223372036854775807

/-- The links of the object at index `u` (objects_[u].links). -/
def linksOf (g : List Object) (u : Nat) : List Link := (g.getD u defaultObject).links

/-- Payload size of the object at index `u` (tail - head in the source). -/
def sizeAt (g : List Object) (u : Nat) : Nat := (g.getD u defaultObject).bytes.length

/-- Number of links from object `u` to object `x` (parallel links count
multiply, matching the decrement bookkeeping of incoming_edge_count). -/
def mult (g : List Object) (u x : Nat) : Nat :=
  (linksOf g u).countP (fun l => l.objidx == x)

/-- Total number of incoming links of object `x`, iterating parents in index
order exactly as incoming_edge_count does. -/
def inDeg (g : List Object) (x : Nat) : Nat :=
  ((List.range g.length).map (fun u => mult g u x)).sum

/-- incoming_edge_count: the stored uint32_t count for each object. -/
def incoming_edge_count (g : List Object) : Nat → Nat :=
  fun x => inDeg g x % 4294967296

/-- Total number of links in the graph. -/
def totalLinks (g : List Object) : Nat := (g.map (fun o => o.links.length)).sum

/- ----------------------------------------------------------------
   Offset arithmetic and the overflow oracle
   ---------------------------------------------------------------- -/

/-- Sum of the payload sizes of objects at indices ≥ i.  will_overflow walks
the objects from the last index down to 0 accumulating an unsigned
current_pos; the running value before emitting index i is exactly this
suffix sum (taken mod 2^32 by the callers below). -/
def tailSizeSum (g : List Object) (i : Nat) : Nat :=
  ((g.drop i).map (fun o => o.bytes.length)).sum

/-- start_positions[i] as stored in the uint32-valued hb_map_t; a lookup of a
missing key returns HB_MAP_VALUE_INVALID = 0xFFFFFFFF. -/
def start_position (g : List Object) (i : Nat) : Nat :=
  if i < g.length then tailSizeSum g (i + 1) % 4294967296 else 4294967295

/-- end_positions[i], ditto. -/
def end_position (g : List Object) (i : Nat) : Nat :=
  if i < g.length then tailSizeSum g i % 4294967296 else 4294967295

/-- 32-bit unsigned subtraction (uint32_t - uint32_t), then read as a
non-negative int64 value, as in `start_positions[c] - start_positions[p]`
where both maps store uint32_t. -/
def u32sub (a b : Nat) : Nat :=
  (a % 4294967296 + (4294967296 - b % 4294967296)) % 4294967296

/-- compute_offset: raw offset by anchor, then the assert that the bias does
not exceed it, then the bias subtraction. -/
def compute_offset (g : List Object) (parent_idx : Nat) (l : Link) :
    Except RepackError Int :=
  let raw : Int :=
    match l.whence with
    | .head => (u32sub (start_position g l.objidx) (start_position g parent_idx) : Nat)
    | .tail => (u32sub (start_position g l.objidx) (end_position g parent_idx) : Nat)
    | .absolute => (start_position g l.objidx : Nat)
  if raw < (l.bias : Int) then .error .offsetUnderflow
  else .ok (raw - (l.bias : Int))

/-- is_valid_offset: representable-range check by width and signedness. -/
def is_valid_offset (offset : Int) (l : Link) : Bool :=
  if l.is_signed then
    if l.is_wide then
      decide (-2147483648 ≤ offset) && decide (offset < 2147483648)
    else
      decide (-32768 ≤ offset) && decide (offset < 32768)
  else
    if l.is_wide then
      decide (0 ≤ offset) && decide (offset < 4294967296)
    else
      decide (0 ≤ offset) && decide (offset < 65536)

/-- Inner loop of will_overflow over one parent's links: stops with true at
the first link whose encoded offset does not fit. -/
def linkCheckLoop (g : List Object) (p : Nat) : List Link → Except RepackError Bool
  | [] => .ok false
  | l :: rest =>
    match compute_offset g p l with
    | .error e => .error e
    | .ok off => if is_valid_offset off l then linkCheckLoop g p rest else .ok true

/-- Outer loop of will_overflow over parent indices in increasing order. -/
def parentCheckLoop (g : List Object) : List Nat → Except RepackError Bool
  | [] => .ok false
  | p :: rest =>
    match linkCheckLoop g p (linksOf g p) with
    | .error e => .error e
    | .ok true => .ok true
    | .ok false => parentCheckLoop g rest

/-- will_overflow. -/
def will_overflow (g : List Object) : Except RepackError Bool :=
  parentCheckLoop g (List.range g.length)

/-- State-passing form of will_overflow's parent loop: the graph the body
reads is threaded through and handed back, reflecting that the source
method writes only to its local position maps and never to objects_. -/
def parentCheckLoopSt (parents : List Nat) (g : List Object) :
    Except RepackError Bool × List Object :=
  match parents with
  | [] => (.ok false, g)
  | p :: rest =>
    match linkCheckLoop g p (linksOf g p) with
    | .error e => (.error e, g)
    | .ok true => (.ok true, g)
    | .ok false => parentCheckLoopSt rest g

/-- will_overflow with the graph state threaded explicitly. -/
def will_overflowSt (g : List Object) : Except RepackError Bool × List Object :=
  parentCheckLoopSt (List.range g.length) g

/- ----------------------------------------------------------------
   Distance computation (Dijkstra with linear-scan minimum)
   ---------------------------------------------------------------- -/

/-- closest_object's scan: hb_set_t iterates in increasing index order; a
strictly smaller distance replaces the best so far, so ties keep the
smaller index.  Returns none when no element beats INT64_MAX, the case in
which the source asserts. -/
def closestAux (dist : List Int) : List Nat → Int → Option Nat → Option Nat
  | [], _, best => best
  | i :: rest, bestD, best =>
    if dist.getD i maxI64 < bestD then closestAux dist rest (dist.getD i maxI64) (some i)
    else closestAux dist rest bestD best

/-- closest_object. -/
def closest_object (dist : List Int) (queue : List Nat) : Option Nat :=
  closestAux dist queue maxI64 none

/-- Relaxation of the links of the object just visited; only links to still
unvisited targets are considered.  The edge weight is the child's payload
size plus 2^16 for a narrow link and 2^32 for a wide one; `nd` is the
already-truncated next_distance. -/
def relaxLinks (g : List Object) (uv : List Nat) (nd : Int) :
    List Link → List Int → List Int
  | [], dist => dist
  | l :: rest, dist =>
    if l.objidx ∈ uv then
      let w : Int := (sizeAt g l.objidx : Int) + (if l.is_wide then 4294967296 else 65536)
      let cd := nd + w
      relaxLinks g uv nd rest
        (if cd < dist.getD l.objidx maxI64 then dist.set l.objidx cd else dist)
    else relaxLinks g uv nd rest dist

/-- The Dijkstra loop of compute_distances.  Note the faithful narrowing
`toInt32` of the extracted distance: the source declares
`int next_distance` although the vector holds int64_t. -/
def dijkstraLoop (g : List Object) : Nat → List Nat → List Int → Except RepackError (List Int)
  | _, [], dist => .ok dist
  | 0, _ :: _, _ => .error .fuelOut
  | fuel + 1, uv@(_ :: _), dist =>
    match closest_object dist uv with
    | none => .error .graphStructure
    | some next =>
      let nd := toInt32 (dist.getD next maxI64)
      let uv2 := uv.erase next
      dijkstraLoop g fuel uv2 (relaxLinks g uv2 nd (linksOf g next) dist)

/-- compute_distances: all distances start at INT64_MAX except the root
(index length-1) at 0; the unvisited set is 0..length-1. -/
def compute_distances (g : List Object) : Except RepackError (List Int) :=
  dijkstraLoop g (g.length + 1) (List.range g.length)
    ((List.replicate g.length maxI64).set (g.length - 1) 0)

/- ----------------------------------------------------------------
   The common sorting loop (Kahn and distance variants)
   ---------------------------------------------------------------- -/

/-- One pass over the links of a just-popped object: decrement each child's
stored uint32 count; a child whose count reaches zero is enqueued. -/
def processLinks (enq : Nat → List Nat → List Nat) :
    List Link → (Nat → Nat) → List Nat → (Nat → Nat) × List Nat
  | [], counts, queue => (counts, queue)
  | l :: rest, counts, queue =>
    let c := hbDec (counts l.objidx)
    processLinks enq rest (fun x => if x = l.objidx then c else counts x)
      (if c = 0 then enq l.objidx queue else queue)

/-- The sorting loop shared by sort_kahn and sort_shortest_distance,
parameterised by the policy that chooses the next ready node (FIFO front
vs closest_object) and by how newly ready nodes enter the queue (FIFO push
vs hb_set_t add).  `deq` returning none models the assert inside
closest_object.  The result is the pop order (original indices). -/
def sortLoop (g : List Object) (deq : List Nat → Option Nat)
    (enq : Nat → List Nat → List Nat) :
    Nat → List Nat → (Nat → Nat) → List Nat → Except RepackError (List Nat)
  | _, [], _, popped => .ok popped
  | 0, _ :: _, _, _ => .error .fuelOut
  | fuel + 1, queue@(_ :: _), counts, popped =>
    match deq queue with
    | none => .error .graphStructure
    | some next =>
      let st := processLinks enq (linksOf g next) counts (queue.erase next)
      sortLoop g deq enq fuel st.2 st.1 (popped ++ [next])

/-- Index of the first occurrence of `x`. -/
def firstPos : List Nat → Nat → Option Nat
  | [], _ => none
  | a :: rest, x => if a = x then some 0 else (firstPos rest x).map (· + 1)

/-- Index of the last occurrence of `x` (id_map.set overwrites, so a later
assignment wins). -/
def lastPos (l : List Nat) (x : Nat) : Option Nat :=
  (firstPos l.reverse x).map (fun j => l.length - 1 - j)

/-- The id_map built by the loop: the k-th popped object was assigned new id
length-1-k. -/
def idMapLookup (popped : List Nat) (len : Nat) (old : Nat) : Option Nat :=
  (lastPos popped old).map (fun k => len - 1 - k)

/-- remap_obj_indices over one link list; a missing key is the assert at the
remap site. -/
def remapLinks (pi : Nat → Option Nat) : List Link → Except RepackError (List Link)
  | [] => .ok []
  | l :: rest =>
    match pi l.objidx with
    | none => .error .remapMissing
    | some v =>
      match remapLinks pi rest with
      | .error e => .error e
      | .ok ls => .ok ({ l with objidx := v } :: ls)

/-- Build the sorted_graph: the popped objects in pop order, links remapped
through the id map. -/
def remapObjects (g : List Object) (pi : Nat → Option Nat) :
    List Nat → Except RepackError (List Object)
  | [] => .ok []
  | u :: rest =>
    match remapLinks pi (linksOf g u) with
    | .error e => .error e
    | .ok ls =>
      match remapObjects g pi rest with
      | .error e => .error e
      | .ok os => .ok ({ bytes := (g.getD u defaultObject).bytes, links := ls } :: os)

/-- Shared tail of both sorts: the connectivity check (new_id must have
reached -1, i.e. every object was popped), the remap, and the final
reversal that puts the root back at the highest index. -/
def finishSort (g : List Object) (popped : List Nat) : Except RepackError (List Object) :=
  if popped.length = g.length then
    match remapObjects g (idMapLookup popped g.length) popped with
    | .error e => .error e
    | .ok sorted => .ok sorted.reverse
  else .error .graphStructure

/-- FIFO dequeue: queue[0]. -/
def fifoDeq (q : List Nat) : Option Nat := q.head?

/-- FIFO enqueue: push at the back. -/
def fifoEnq (x : Nat) (q : List Nat) : List Nat := q ++ [x]

/-- hb_set_t add: sorted duplicate-free insertion. -/
def insertAsc (x : Nat) : List Nat → List Nat
  | [] => [x]
  | a :: rest =>
    if x < a then x :: a :: rest
    else if x = a then a :: rest
    else a :: insertAsc x rest

/-- sort_kahn. -/
def sort_kahn (g : List Object) : Except RepackError (List Object) :=
  if g.length ≤ 1 then .ok g
  else
    match sortLoop g fifoDeq fifoEnq (g.length + 1) [g.length - 1]
        (incoming_edge_count g) [] with
    | .error e => .error e
    | .ok popped => finishSort g popped

/-- sort_shortest_distance. -/
def sort_shortest_distance (g : List Object) : Except RepackError (List Object) :=
  if g.length ≤ 1 then .ok g
  else
    match compute_distances g with
    | .error e => .error e
    | .ok dist =>
      match sortLoop g (closest_object dist) insertAsc (g.length + 1) [g.length - 1]
          (incoming_edge_count g) [] with
      | .error e => .error e
      | .ok popped => finishSort g popped

/- ----------------------------------------------------------------
   Re-emission and the driver
   ---------------------------------------------------------------- -/

/-- A deferred patch registered against the sink by add_link: the target
index **plus one** (the sink re-allocates a nil sentinel at index 0),
anchor, bias, and the field's position/width/signedness. -/
structure RegisteredLink where
  target : Nat
  whence : Whence
  bias : Nat
  position : Nat
  is_wide : Bool
  is_signed : Bool
deriving DecidableEq, Repr

/-- One object frame as handed to the sink: payload bytes (offset fields
zero-initialised) plus the registered patches. -/
structure EmittedObject where
  bytes : List Nat
  patches : List RegisteredLink
deriving DecidableEq, Repr

/-- Byte width of a link's offset field. -/
def linkWidthBytes (l : Link) : Nat := if l.is_wide then 4 else 2

/-- `*offset = 0`: zero the w bytes at position pos. -/
def zeroRange (bytes : List Nat) (pos w : Nat) : List Nat :=
  (List.range w).foldl (fun b k => b.set (pos + k) 0) bytes

/-- serialize for one object: copy the payload, zero each link's field, and
register each link with target objidx + 1 (unsigned arithmetic). -/
def serializeObject (o : Object) : EmittedObject :=
  { bytes := o.links.foldl (fun b l => zeroRange b l.position (linkWidthBytes l)) o.bytes
    patches := o.links.map (fun l =>
      { target := (l.objidx + 1) % 4294967296, whence := l.whence, bias := l.bias
        position := l.position, is_wide := l.is_wide, is_signed := l.is_signed }) }

/-- graph_t::serialize: one frame per object, in vector order. -/
def serializeGraph (g : List Object) : List EmittedObject := g.map serializeObject

/-- Decrement a link's child index by one (unsigned), compensating for the
dropped nil sentinel. -/
def decLink (l : Link) : Link := { l with objidx := hbDec l.objidx }

def decObject (o : Object) : Object := { o with links := o.links.map decLink }

/-- The graph_t constructor: if slot 0 of the packed list is the nil object
it is dropped and every child index is decremented by one; otherwise the
list is taken as is.  No validation of any kind is performed (the source
carries TODOs for it).  A null entry at a later slot is undefined
behaviour in the source (it would dereference null) and is skipped here;
no theorem below exercises that case. -/
def graphFromPacked : List (Option Object) → List Object
  | none :: rest => (rest.filterMap id).map decObject
  | packed => packed.filterMap id

/-- hb_resolve_overflows: import, Kahn sort, consult the oracle, optionally
distance-sort once, then re-emit. -/
def hb_resolve_overflows (packed : List (Option Object)) :
    Except RepackError (List EmittedObject) :=
  match sort_kahn (graphFromPacked packed) with
  | .error e => .error e
  | .ok g1 =>
    match will_overflow g1 with
    | .error e => .error e
    | .ok true =>
      match sort_shortest_distance g1 with
      | .error e => .error e
      | .ok g2 => .ok (serializeGraph g2)
    | .ok false => .ok (serializeGraph g1)

/- ----------------------------------------------------------------
   Structural predicates
   ---------------------------------------------------------------- -/

/-- Reachability from the root (index length-1) along links. -/
inductive Reaches (g : List Object) : Nat → Prop where
  | root : Reaches g (g.length - 1)
  | step {u v : Nat} : Reaches g u → (∃ l ∈ linksOf g u, l.objidx = v) → Reaches g v

/-- The Graph invariant maintained at every observable boundary: the object
sequence is a valid reverse topological order, i.e. every link's child
index is strictly below its parent's index (hence also in range). -/
def validGraph (g : List Object) : Prop :=
  ∀ i, i < g.length → ∀ l ∈ linksOf g i, l.objidx < i

/-- Every object is reachable from the root. -/
def rootConnected (g : List Object) : Prop :=
  ∀ i, i < g.length → Reaches g i

/-- The total link count stays clear of uint32 wraparound (true of any real
input; needed because edge counts live in a uint32-valued map). -/
def smallLinks (g : List Object) : Prop := totalLinks g < 4294967296

/-- Payload sizes stay clear of 2^32 (true of any real input; needed because
edge weights add a 2^32 penalty inside int64 arithmetic). -/
def smallSizes (g : List Object) : Prop :=
  ∀ i, i < g.length → sizeAt g i < 4294967296

/-- The raw offset of the specification, §4.4: the child's start position
minus the anchor base, as exact integers. -/
def specRawOffset (g : List Object) (p : Nat) (l : Link) : Int :=
  match l.whence with
  | .head => (start_position g l.objidx : Int) - (start_position g p : Int)
  | .tail => (start_position g l.objidx : Int) - (end_position g p : Int)
  | .absolute => (start_position g l.objidx : Int)

/- ----------------------------------------------------------------
   Proof-side characterisations of the sorting loop
   ---------------------------------------------------------------- -/

/-- Number of links in `ls` that target `x`. -/
def occL (ls : List Link) (x : Nat) : Nat := ls.countP (fun l => l.objidx == x)

/-- Number of links into `x` whose parent has already been popped. -/
def popSum (g : List Object) (popped : List Nat) (x : Nat) : Nat :=
  (popped.map (fun u => mult g u x)).sum

/-- The invariant of the shared sorting loop, relating the ready queue, the
pop order so far and the uint32 edge-count map. -/
structure SortInv (g : List Object) (queue popped : List Nat)
    (counts : Nat → Nat) : Prop where
  nodupP : popped.Nodup
  nodupQ : queue.Nodup
  disj : ∀ x ∈ queue, x ∉ popped
  ltP : ∀ x ∈ popped, x < g.length
  ltQ : ∀ x ∈ queue, x < g.length
  reachP : ∀ x ∈ popped, Reaches g x
  reachQ : ∀ x ∈ queue, Reaches g x
  rootIn : g.length - 1 ∈ popped ∨ g.length - 1 ∈ queue
  degU : ∀ x, x ∈ popped ∨ x ∈ queue →
    x = g.length - 1 ∨ (0 < inDeg g x ∧ popSum g popped x = inDeg g x)
  notIn : ∀ x, x < g.length → x ∉ popped → x ∉ queue →
    popSum g popped x < inDeg g x ∨ inDeg g x = 0
  ord : ∀ x ∈ popped, ∀ u, 0 < mult g u x →
    ∃ ju jx, firstPos popped u = some ju ∧ firstPos popped x = some jx ∧ ju < jx
  cnt : ∀ x, counts x = inDeg g x - popSum g popped x

/-- The link remap a completed pop order induces: the object popped k-th got
new id length-1-k, so a child index becomes length-1-position. -/
def outLink (len : Nat) (popped : List Nat) (l : Link) : Link :=
  { l with objidx := len - 1 - ((firstPos popped l.objidx).getD 0) }

/-- The object a completed pop order emits for original index `u`. -/
def outObject (g : List Object) (popped : List Nat) (u : Nat) : Object :=
  { bytes := (g.getD u defaultObject).bytes
    links := (linksOf g u).map (outLink g.length popped) }

/-- The graph either sort produces from a completed pop order: popped objects
with remapped links, in pop order, then reversed. -/
def buildOut (g : List Object) (popped : List Nat) : List Object :=
  (popped.map (outObject g popped)).reverse

/- ----------------------------------------------------------------
   Concrete inputs used by counterexamples and witnesses
   ---------------------------------------------------------------- -/

/-- A link with the given child index and width, head-anchored, unbiased. -/
def mkLink (o : Nat) (w : Bool) : Link :=
  { objidx := o, position := 0, is_wide := w, is_signed := false
    whence := .head, bias := 0 }

/-- Root-connected acyclic graph on which the `int next_distance` truncation
at source line 283 is observable: the root reaches c (index 0) and X
(index 2) through wide links, X reaches p (index 1) through a narrow
link, and p links narrowly to c.  dist[c] stays above 2^32 while p's
distance is computed from X's truncated distance. -/
def c5Graph : List Object :=
  [ { bytes := List.replicate 5 0, links := [] },
    { bytes := List.replicate 1 0, links := [mkLink 0 false] },
    { bytes := List.replicate 10 0, links := [mkLink 1 false] },
    { bytes := List.replicate 1 0, links := [mkLink 2 true, mkLink 0 true] } ]

/-- A malformed packed list: after the nil sentinel, the only object carries
a link whose child index (7, then 6 after the sentinel adjustment) is far
out of range for the resulting 1-object graph. -/
def c6Malformed : List (Option Object) :=
  [none, some { bytes := [0, 0], links := [⟨7, 0, false, false, .head, 0⟩] }]

/-- Two objects, a leaf and a root that links to it: used to exercise the
theorems with hypotheses on concrete inputs. -/
def twoChain : List Object :=
  [ { bytes := [9, 9], links := [] },
    { bytes := [7], links := [⟨0, 0, false, false, .head, 1⟩] } ]

/-- Two objects with no links at all: index 0 is unreachable from the root. -/
def twoOrphan : List Object :=
  [ { bytes := [5], links := [] }, { bytes := [6], links := [] } ]

/-- Input objects (pre-import, sentinel indices) for the round-trip witness. -/
def rtObjs : List Object :=
  [ { bytes := [1, 2, 3, 4], links := [⟨2, 1, false, false, .head, 9⟩] },
    { bytes := [9], links := [] } ]

/-- The biased head-anchored link of twoChain's root, used as a witness. -/
def wLink3 : Link :=
  { objidx := 0, position := 0, is_wide := false, is_signed := false
    whence := .head, bias := 1 }

/- ----------------------------------------------------------------
   Helper lemmas: positions and offset arithmetic
   ---------------------------------------------------------------- -/

theorem tailSizeSum_succ_le (g : List Object) (i : Nat) :
    tailSizeSum g (i + 1) ≤ tailSizeSum g i := by
  induction g generalizing i with
  | nil => simp [tailSizeSum]
  | cons a t ih =>
    cases i with
    | zero =>
      have h0 : tailSizeSum (a :: t) 0 = a.bytes.length + tailSizeSum t 0 := by
        simp [tailSizeSum]
      have h1 : tailSizeSum (a :: t) (0 + 1) = tailSizeSum t 0 := by
        simp [tailSizeSum]
      omega
    | succ n =>
      have h0 : tailSizeSum (a :: t) (n + 1) = tailSizeSum t n := by
        simp [tailSizeSum]
      have h1 : tailSizeSum (a :: t) (n + 1 + 1) = tailSizeSum t (n + 1) := by
        simp [tailSizeSum]
      have h2 := ih n
      omega

theorem tailSizeSum_anti (g : List Object) {i j : Nat} (h : i ≤ j) :
    tailSizeSum g j ≤ tailSizeSum g i := by
  induction j with
  | zero => simp_all
  | succ n ih =>
    rcases Nat.lt_or_ge i (n + 1) with h2 | h2
    · exact le_trans (tailSizeSum_succ_le g n) (ih (by omega))
    · have : i = n + 1 := by omega
      subst this; exact le_rfl

theorem tailSizeSum_lt (g : List Object) (i : Nat)
    (hT : tailSizeSum g 0 < 4294967296) : tailSizeSum g i < 4294967296 :=
  lt_of_le_of_lt (tailSizeSum_anti g (Nat.zero_le i)) hT

theorem start_position_eq (g : List Object) (i : Nat) (h : i < g.length)
    (hT : tailSizeSum g 0 < 4294967296) :
    start_position g i = tailSizeSum g (i + 1) := by
  unfold start_position
  rw [if_pos h, Nat.mod_eq_of_lt (tailSizeSum_lt g (i + 1) hT)]

theorem end_position_eq (g : List Object) (i : Nat) (h : i < g.length)
    (hT : tailSizeSum g 0 < 4294967296) :
    end_position g i = tailSizeSum g i := by
  unfold end_position
  rw [if_pos h, Nat.mod_eq_of_lt (tailSizeSum_lt g i hT)]

theorem u32sub_eq (a b : Nat) (hba : b ≤ a) (ha : a < 4294967296) :
    u32sub a b = a - b := by
  unfold u32sub
  omega

/- ----------------------------------------------------------------
   Helper lemmas: graph import and re-emission
   ---------------------------------------------------------------- -/

theorem filterMap_id_map_some (l : List α) : (l.map some).filterMap id = l := by
  induction l with
  | nil => rfl
  | cons a t ih => simp [ih]

theorem graphFromPacked_none_cons (objs : List Object) :
    graphFromPacked (none :: objs.map some) = objs.map decObject :=
  congrArg (List.map decObject) (filterMap_id_map_some objs)

theorem graphFromPacked_some_cons (o : Object) (objs : List Object) :
    graphFromPacked (some o :: objs.map some) = o :: objs :=
  filterMap_id_map_some (o :: objs)

theorem hbDec_roundtrip (n : Nat) (h1 : 1 ≤ n) (h2 : n < 4294967296) :
    (hbDec n + 1) % 4294967296 = n := by
  unfold hbDec
  rw [if_neg (by omega)]
  omega

theorem foldl_zeroRange_decLink (bytes : List Nat) (ls : List Link) :
    (ls.map decLink).foldl (fun b l => zeroRange b l.position (linkWidthBytes l)) bytes =
      ls.foldl (fun b l => zeroRange b l.position (linkWidthBytes l)) bytes := by
  induction ls generalizing bytes with
  | nil => rfl
  | cons l rest ih =>
    simp only [List.map_cons, List.foldl_cons]
    exact ih _

theorem serializeObject_decObject (o : Object)
    (hb : ∀ l ∈ o.links, 1 ≤ l.objidx ∧ l.objidx < 4294967296) :
    serializeObject (decObject o) =
      { bytes := o.links.foldl (fun b l => zeroRange b l.position (linkWidthBytes l)) o.bytes
        patches := o.links.map (fun l =>
          { target := l.objidx, whence := l.whence, bias := l.bias
            position := l.position, is_wide := l.is_wide, is_signed := l.is_signed }) } := by
  unfold serializeObject decObject
  simp only [EmittedObject.mk.injEq, List.map_map]
  constructor
  · exact foldl_zeroRange_decLink o.bytes o.links
  · apply List.map_congr_left
    intro l hl
    have h := hbDec_roundtrip l.objidx (hb l hl).1 (hb l hl).2
    simp [Function.comp, decLink, h]

/- ----------------------------------------------------------------
   Helper lemmas: will_overflow state threading
   ---------------------------------------------------------------- -/

theorem parentCheckLoopSt_snd (ps : List Nat) (g : List Object) :
    (parentCheckLoopSt ps g).2 = g := by
  induction ps with
  | nil => rfl
  | cons p rest ih =>
    unfold parentCheckLoopSt
    cases h : linkCheckLoop g p (linksOf g p) with
    | error e => simp [h]
    | ok b => cases b <;> simp [h, ih]

theorem parentCheckLoopSt_fst (ps : List Nat) (g : List Object) :
    (parentCheckLoopSt ps g).1 = parentCheckLoop g ps := by
  induction ps with
  | nil => rfl
  | cons p rest ih =>
    unfold parentCheckLoopSt parentCheckLoop
    cases h : linkCheckLoop g p (linksOf g p) with
    | error e => simp [h]
    | ok b => cases b <;> simp [h, ih]

/- ----------------------------------------------------------------
   Claim theorems (first group)
   ---------------------------------------------------------------- -/

/-- Claim C4: the fits check accepts an encoded offset exactly when it lies
in the representable range of the link's width and signedness, and in
particular -32768 and 32767 fit a signed narrow link while -32769 and
32768 do not. -/
theorem claim_c4_fits_check :
    (∀ (off : Int) (l : Link),
      is_valid_offset off l = true ↔
        (match l.is_signed, l.is_wide with
         | true, false => -(2 ^ 15) ≤ off ∧ off < 2 ^ 15
         | true, true => -(2 ^ 31) ≤ off ∧ off < 2 ^ 31
         | false, false => 0 ≤ off ∧ off < 2 ^ 16
         | false, true => 0 ≤ off ∧ off < 2 ^ 32)) ∧
    is_valid_offset (-32768) ⟨0, 0, false, true, .head, 0⟩ = true ∧
    is_valid_offset 32767 ⟨0, 0, false, true, .head, 0⟩ = true ∧
    is_valid_offset (-32769) ⟨0, 0, false, true, .head, 0⟩ = false ∧
    is_valid_offset 32768 ⟨0, 0, false, true, .head, 0⟩ = false := by
  refine ⟨fun off l => ?_, by decide, by decide, by decide, by decide⟩
  cases hs : l.is_signed <;> cases hw : l.is_wide <;>
    simp [is_valid_offset, hs, hw]

/-- Claim C5 (code bug): on the root-connected acyclic graph c5Graph the
claimed relaxation inequality distance[c] ≤ distance[p] + weight(link)
fails for the link from p (index 1) to c (index 0), because the source
narrows the extracted 64-bit distance into a 32-bit `int`
(`int next_distance`, line 283) before relaxing.  The final distances are
dist[c] = 2^32 + 5 while dist[p] = 65547, with weight(p→c) = 5 + 2^16. -/
theorem claim_c5_truncated_distance :
    compute_distances c5Graph = .ok [4294967301, 65547, 4294967306, 0] ∧
    mult c5Graph 1 0 = 1 ∧
    ¬ ((4294967301 : Int) ≤ 65547 + ((sizeAt c5Graph 0 : Int) + 65536)) := by
  refine ⟨by rfl, by decide, by decide⟩

/-- Claim C6 (counterexample): graph construction does not fail on malformed
input.  On a packed list whose only real object carries a link with a far
out-of-range child index, the constructor succeeds and the out-of-range
index is imported as is. -/
theorem claim_c6_counterexample :
    (graphFromPacked c6Malformed).length = 1 ∧
    ∃ l ∈ linksOf (graphFromPacked c6Malformed) 0,
      (graphFromPacked c6Malformed).length ≤ l.objidx := by
  decide

/-- Claim C6 (amended): the constructor performs no validation and never
fails; it drops a leading nil object and decrements every link's child
index by one (unsigned), and otherwise imports the list exactly as
given, malformed links included. -/
theorem claim_c6_amended (objs : List Object) (o : Object) :
    graphFromPacked (none :: objs.map some) = objs.map decObject ∧
    graphFromPacked (some o :: objs.map some) = o :: objs :=
  ⟨graphFromPacked_none_cons objs, graphFromPacked_some_cons o objs⟩

/-- Claim C10: will_overflow is a pure query; with the graph state threaded
explicitly through its loop, the state handed back is the input graph
unchanged — same length, same payload bytes, same links — and the
returned verdict is will_overflow's. -/
theorem claim_c10_will_overflow_pure (g : List Object) :
    (will_overflowSt g).2 = g ∧
    (will_overflowSt g).1 = will_overflow g ∧
    (will_overflowSt g).2.length = g.length ∧
    (∀ i, ((will_overflowSt g).2.getD i defaultObject).bytes =
        (g.getD i defaultObject).bytes ∧
      linksOf (will_overflowSt g).2 i = linksOf g i) := by
  have h2 := parentCheckLoopSt_snd (List.range g.length) g
  refine ⟨h2, parentCheckLoopSt_fst (List.range g.length) g, ?_, ?_⟩
  · rw [show (will_overflowSt g).2 = g from h2]
  · intro i
    rw [show (will_overflowSt g).2 = g from h2]
    exact ⟨rfl, rfl⟩

/-- Claim C3: under any ordering presented to the oracle (the child placed
below its parent, as every sorted order guarantees) the raw offset is
start[c] - start[p] for Head anchors, start[c] - end[p] for Tail anchors
and start[c] for Absolute anchors; a bias exceeding the raw offset is the
fatal OffsetUnderflow, and otherwise the encoded value is exactly
raw_offset - bias. -/
theorem claim_c3_compute_offset (g : List Object) (p : Nat) (l : Link)
    (hp : p < g.length) (hc : l.objidx < p)
    (hT : tailSizeSum g 0 < 4294967296) :
    ((l.bias : Int) ≤ specRawOffset g p l →
      compute_offset g p l = .ok (specRawOffset g p l - (l.bias : Int))) ∧
    (specRawOffset g p l < (l.bias : Int) →
      compute_offset g p l = .error .offsetUnderflow) := by
  obtain ⟨o, posn, w, sg, wh, bias⟩ := l
  have hc2 : o < p := hc
  have ho : o < g.length := lt_trans hc2 hp
  have eA : start_position g o = tailSizeSum g (o + 1) :=
    start_position_eq g o ho hT
  have hltA : tailSizeSum g (o + 1) < 4294967296 := tailSizeSum_lt g (o + 1) hT
  cases wh with
  | head =>
    have eB : start_position g p = tailSizeSum g (p + 1) :=
      start_position_eq g p hp hT
    have hle : tailSizeSum g (p + 1) ≤ tailSizeSum g (o + 1) :=
      tailSizeSum_anti g (by omega)
    simp only [compute_offset, specRawOffset, eA, eB, u32sub_eq _ _ hle hltA]
    rw [Nat.cast_sub hle]
    constructor
    · intro h; rw [if_neg (not_lt.mpr h)]
    · intro h; rw [if_pos h]
  | tail =>
    have eB : end_position g p = tailSizeSum g p :=
      end_position_eq g p hp hT
    have hle : tailSizeSum g p ≤ tailSizeSum g (o + 1) :=
      tailSizeSum_anti g (by omega)
    simp only [compute_offset, specRawOffset, eA, eB, u32sub_eq _ _ hle hltA]
    rw [Nat.cast_sub hle]
    constructor
    · intro h; rw [if_neg (not_lt.mpr h)]
    · intro h; rw [if_pos h]
  | absolute =>
    simp only [compute_offset, specRawOffset]
    constructor
    · intro h; rw [if_neg (not_lt.mpr h)]
    · intro h; rw [if_pos h]

/-- Witness for claim C3 on the two-object chain with a biased link. -/
theorem claim_c3_compute_offset_witness :
    ((1 : Nat) < twoChain.length ∧ wLink3.objidx < 1 ∧
      tailSizeSum twoChain 0 < 4294967296) ∧
    (((wLink3.bias : Nat) : Int) ≤ specRawOffset twoChain 1 wLink3 →
      compute_offset twoChain 1 wLink3 =
        .ok (specRawOffset twoChain 1 wLink3 - ((wLink3.bias : Nat) : Int))) ∧
    (specRawOffset twoChain 1 wLink3 < ((wLink3.bias : Nat) : Int) →
      compute_offset twoChain 1 wLink3 = .error .offsetUnderflow) :=
  ⟨⟨by decide, by decide, by decide⟩,
    claim_c3_compute_offset twoChain 1 wLink3 (by decide) (by decide) (by decide)⟩

/-- Claim C9: with a nil sentinel at slot 0, import drops the sentinel and
decrements every child index by one; re-emission zero-initialises the
width-sized field at each link's position inside the appended payload
bytes and registers the link with target index one above the Graph
index, so each emitted target equals the original pre-import child index
under the identity ordering. -/
theorem claim_c9_sentinel_roundtrip (objs : List Object)
    (hb : ∀ o ∈ objs, ∀ l ∈ o.links, 1 ≤ l.objidx ∧ l.objidx < 4294967296) :
    graphFromPacked (none :: objs.map some) = objs.map decObject ∧
    serializeGraph (graphFromPacked (none :: objs.map some)) =
      objs.map (fun o =>
        { bytes := o.links.foldl
            (fun b l => zeroRange b l.position (linkWidthBytes l)) o.bytes
          patches := o.links.map (fun l =>
            { target := l.objidx, whence := l.whence, bias := l.bias
              position := l.position, is_wide := l.is_wide
              is_signed := l.is_signed }) }) := by
  refine ⟨graphFromPacked_none_cons objs, ?_⟩
  rw [graphFromPacked_none_cons]
  unfold serializeGraph
  rw [List.map_map]
  apply List.map_congr_left
  intro o ho
  exact serializeObject_decObject o (hb o ho)

/-- Witness for claim C9 on a two-object input with one narrow biased link. -/
theorem claim_c9_sentinel_roundtrip_witness :
    (∀ o ∈ rtObjs, ∀ l ∈ o.links, 1 ≤ l.objidx ∧ l.objidx < 4294967296) ∧
    (graphFromPacked (none :: rtObjs.map some) = rtObjs.map decObject ∧
      serializeGraph (graphFromPacked (none :: rtObjs.map some)) =
        rtObjs.map (fun o =>
          { bytes := o.links.foldl
              (fun b l => zeroRange b l.position (linkWidthBytes l)) o.bytes
            patches := o.links.map (fun l =>
              { target := l.objidx, whence := l.whence, bias := l.bias
                position := l.position, is_wide := l.is_wide
                is_signed := l.is_signed }) })) :=
  ⟨by decide, claim_c9_sentinel_roundtrip rtObjs (by decide)⟩

/- ----------------------------------------------------------------
   Helper lemmas: firstPos / lastPos
   ---------------------------------------------------------------- -/

theorem getD_mem_of_lt {α : Type} (l : List α) (j : Nat) (d : α) (h : j < l.length) :
    l.getD j d ∈ l := by
  induction l generalizing j with
  | nil => simp at h
  | cons a t ih =>
    cases j with
    | zero => simp [List.getD]
    | succ n =>
      have h2 := ih n (by simpa using h)
      simp only [List.getD_cons_succ]
      exact List.mem_cons_of_mem a h2

theorem firstPos_cons_self (a x : Nat) (t : List Nat) (h : a = x) :
    firstPos (a :: t) x = some 0 := by
  simp [firstPos, h]

theorem firstPos_cons_ne (a x : Nat) (t : List Nat) (h : ¬ a = x) :
    firstPos (a :: t) x = (firstPos t x).map (· + 1) := by
  simp [firstPos, h]

theorem firstPos_lt_length (l : List Nat) (x j : Nat)
    (h : firstPos l x = some j) : j < l.length := by
  induction l generalizing j with
  | nil => simp [firstPos] at h
  | cons a t ih =>
    by_cases ha : a = x
    · rw [firstPos_cons_self a x t ha] at h
      simp only [Option.some.injEq] at h
      simp only [List.length_cons]
      omega
    · rw [firstPos_cons_ne a x t ha, Option.map_eq_some'] at h
      obtain ⟨j2, hj2, rfl⟩ := h
      have := ih j2 hj2
      simp only [List.length_cons]
      omega

theorem firstPos_getD (l : List Nat) (x j : Nat) (d : Nat)
    (h : firstPos l x = some j) : l.getD j d = x := by
  induction l generalizing j with
  | nil => simp [firstPos] at h
  | cons a t ih =>
    by_cases ha : a = x
    · rw [firstPos_cons_self a x t ha] at h
      simp only [Option.some.injEq] at h
      subst h
      simpa [List.getD] using ha
    · rw [firstPos_cons_ne a x t ha, Option.map_eq_some'] at h
      obtain ⟨j2, hj2, rfl⟩ := h
      simpa [List.getD_cons_succ] using ih j2 hj2

theorem firstPos_mem (l : List Nat) (x j : Nat) (h : firstPos l x = some j) :
    x ∈ l := by
  have h2 := firstPos_getD l x j 0 h
  rw [← h2]
  exact getD_mem_of_lt l j 0 (firstPos_lt_length l x j h)

theorem mem_firstPos (l : List Nat) (x : Nat) (h : x ∈ l) :
    ∃ j, firstPos l x = some j := by
  induction l with
  | nil => simp at h
  | cons a t ih =>
    by_cases ha : a = x
    · exact ⟨0, firstPos_cons_self a x t ha⟩
    · have hx : x ∈ t := by
        rcases List.mem_cons.mp h with h1 | h1
        · exact absurd h1.symm ha
        · exact h1
      obtain ⟨j, hj⟩ := ih hx
      exact ⟨j + 1, by rw [firstPos_cons_ne a x t ha, hj]; rfl⟩

theorem firstPos_eq_none (l : List Nat) (x : Nat) (h : x ∉ l) :
    firstPos l x = none := by
  induction l with
  | nil => rfl
  | cons a t ih =>
    have ha : ¬ a = x := fun he => h (he ▸ List.mem_cons_self a t)
    have ht : x ∉ t := fun he => h (List.mem_cons_of_mem a he)
    rw [firstPos_cons_ne a x t ha, ih ht]
    rfl

theorem firstPos_append_left (l1 l2 : List Nat) (x : Nat) (h : x ∈ l1) :
    firstPos (l1 ++ l2) x = firstPos l1 x := by
  induction l1 with
  | nil => simp at h
  | cons a t ih =>
    by_cases ha : a = x
    · rw [List.cons_append, firstPos_cons_self a x _ ha, firstPos_cons_self a x t ha]
    · have hx : x ∈ t := by
        rcases List.mem_cons.mp h with h1 | h1
        · exact absurd h1.symm ha
        · exact h1
      rw [List.cons_append, firstPos_cons_ne a x _ ha, firstPos_cons_ne a x t ha, ih hx]

theorem firstPos_append_right (l1 l2 : List Nat) (x : Nat) (h : x ∉ l1) :
    firstPos (l1 ++ l2) x = (firstPos l2 x).map (· + l1.length) := by
  induction l1 with
  | nil =>
    simp only [List.nil_append, List.length_nil]
    cases hf : firstPos l2 x <;> simp [hf]
  | cons a t ih =>
    have ha : ¬ a = x := fun he => h (he ▸ List.mem_cons_self a t)
    have ht : x ∉ t := fun he => h (List.mem_cons_of_mem a he)
    rw [List.cons_append, firstPos_cons_ne a x _ ha, ih ht]
    cases hf : firstPos l2 x with
    | none => rfl
    | some j =>
      simp only [Option.map_some', Option.some.injEq, List.length_cons]
      omega

theorem firstPos_getD_nodup (l : List Nat) (j : Nat) (d : Nat)
    (hn : l.Nodup) (hj : j < l.length) : firstPos l (l.getD j d) = some j := by
  induction l generalizing j with
  | nil => simp at hj
  | cons a t ih =>
    cases j with
    | zero => exact firstPos_cons_self a _ t (by simp [List.getD])
    | succ n =>
      have hnlt : n < t.length := by simpa using hj
      have hmem : t.getD n d ∈ t := getD_mem_of_lt t n d hnlt
      have ha : ¬ a = t.getD n d := by
        intro he
        exact (List.nodup_cons.mp hn).1 (he ▸ hmem)
      rw [show (a :: t).getD (n + 1) d = t.getD n d from rfl]
      rw [firstPos_cons_ne a _ t ha, ih n (List.nodup_cons.mp hn).2 hnlt]
      rfl

theorem firstPos_inj (l : List Nat) (a b j : Nat)
    (ha : firstPos l a = some j) (hb : firstPos l b = some j) : a = b := by
  have h1 := firstPos_getD l a j 0 ha
  have h2 := firstPos_getD l b j 0 hb
  omega

theorem lastPos_eq_firstPos (l : List Nat) (x : Nat) (hn : l.Nodup) :
    lastPos l x = firstPos l x := by
  by_cases hx : x ∈ l
  · obtain ⟨s, t, rfl⟩ := List.append_of_mem hx
    obtain ⟨hs, hxt, hdisj⟩ := List.nodup_append.mp hn
    have hxs : x ∉ s := fun hc => hdisj hc (List.mem_cons_self x t)
    have hxt2 : x ∉ t := (List.nodup_cons.mp hxt).1
    have hfwd : firstPos (s ++ x :: t) x = some s.length := by
      rw [firstPos_append_right s (x :: t) x hxs, firstPos_cons_self x x t rfl]
      simp only [Option.map_some', Option.some.injEq]
      omega
    have hrev : firstPos (s ++ x :: t).reverse x = some t.length := by
      rw [List.reverse_append, List.reverse_cons]
      have hxtr : x ∉ t.reverse := by simpa using hxt2
      rw [List.append_assoc, firstPos_append_right t.reverse ([x] ++ s.reverse) x hxtr]
      rw [show firstPos ([x] ++ s.reverse) x = some 0 from firstPos_cons_self x x _ rfl]
      simp only [Option.map_some', Option.some.injEq]
      simp
    unfold lastPos
    rw [hrev, hfwd]
    simp only [Option.map_some', Option.some.injEq, List.length_append, List.length_cons]
    omega
  · unfold lastPos
    rw [firstPos_eq_none l x hx,
      firstPos_eq_none l.reverse x (by simpa using hx)]
    rfl

/- ----------------------------------------------------------------
   Helper lemmas: degrees and pop sums
   ---------------------------------------------------------------- -/

theorem linksOf_eq_nil_of_ge (g : List Object) (u : Nat) (h : g.length ≤ u) :
    linksOf g u = [] := by
  unfold linksOf
  rw [List.getD_eq_default g defaultObject h]
  rfl

theorem mult_pos_lt_len (g : List Object) {u x : Nat} (h : 0 < mult g u x) :
    u < g.length := by
  by_contra hc
  push_neg at hc
  unfold mult at h
  rw [linksOf_eq_nil_of_ge g u hc] at h
  rw [List.countP_nil] at h
  omega

theorem mult_pos_child (g : List Object) (hv : validGraph g) {u x : Nat}
    (h : 0 < mult g u x) : x < u := by
  have hu := mult_pos_lt_len g h
  unfold mult at h
  rw [List.countP_pos_iff] at h
  obtain ⟨l, hl, he⟩ := h
  have h2 := hv u hu l hl
  exact beq_iff_eq.mp he ▸ h2

theorem mult_pos_of_link (g : List Object) {u x : Nat} {l : Link}
    (hl : l ∈ linksOf g u) (he : l.objidx = x) : 0 < mult g u x := by
  unfold mult
  rw [List.countP_pos_iff]
  exact ⟨l, hl, by simp [he]⟩

theorem link_of_mult_pos (g : List Object) {u x : Nat} (h : 0 < mult g u x) :
    ∃ l ∈ linksOf g u, l.objidx = x := by
  unfold mult at h
  rw [List.countP_pos_iff] at h
  obtain ⟨l, hl, he⟩ := h
  exact ⟨l, hl, beq_iff_eq.mp he⟩

theorem sum_range_getD {α : Type} (l : List α) (F : α → Nat) (d : α) :
    ((List.range l.length).map (fun i => F (l.getD i d))).sum = (l.map F).sum := by
  induction l with
  | nil => rfl
  | cons a t ih =>
    rw [List.length_cons, List.range_succ_eq_map]
    simp only [List.map_cons, List.map_map, List.sum_cons]
    have h2 : (List.map ((fun i => F ((a :: t).getD i d)) ∘ Nat.succ)
          (List.range t.length)).sum
        = (List.map (fun i => F (t.getD i d)) (List.range t.length)).sum := by
      congr 1
    rw [h2, ih]
    rfl

theorem sum_list_range_eq_finset (n : Nat) (f : Nat → Nat) :
    ((List.range n).map f).sum = ∑ u ∈ Finset.range n, f u := by
  induction n with
  | zero => simp
  | succ m ih =>
    rw [List.range_succ, List.map_append, List.sum_append, Finset.sum_range_succ, ih]
    simp

theorem inDeg_finset (g : List Object) (x : Nat) :
    inDeg g x = ∑ u ∈ Finset.range g.length, mult g u x := by
  unfold inDeg
  exact sum_list_range_eq_finset g.length (fun u => mult g u x)

theorem inDeg_le_totalLinks (g : List Object) (x : Nat) :
    inDeg g x ≤ totalLinks g := by
  unfold inDeg totalLinks
  rw [← sum_range_getD g (fun o => o.links.length) defaultObject]
  apply List.sum_le_sum
  intro i hi
  exact List.countP_le_length _

theorem incoming_edge_count_eq (g : List Object) (hl : smallLinks g) (x : Nat) :
    incoming_edge_count g x = inDeg g x :=
  Nat.mod_eq_of_lt (lt_of_le_of_lt (inDeg_le_totalLinks g x) hl)

theorem mult_le_inDeg (g : List Object) {u : Nat} (x : Nat) (hu : u < g.length) :
    mult g u x ≤ inDeg g x := by
  rw [inDeg_finset]
  exact Finset.single_le_sum (f := fun u => mult g u x)
    (fun i _ => Nat.zero_le _) (Finset.mem_range.mpr hu)

theorem inDeg_pos_parent (g : List Object) {x : Nat} (h : 0 < inDeg g x) :
    ∃ u, 0 < mult g u x := by
  by_contra hc
  push_neg at hc
  have h0 : inDeg g x = 0 := by
    rw [inDeg_finset]
    exact Finset.sum_eq_zero (fun u _ => Nat.le_zero.mp (hc u))
  omega

theorem inDeg_root_zero (g : List Object) (hv : validGraph g) :
    inDeg g (g.length - 1) = 0 := by
  rcases Nat.eq_zero_or_pos (inDeg g (g.length - 1)) with h | h
  · exact h
  · obtain ⟨u, hu⟩ := inDeg_pos_parent g h
    have h1 := mult_pos_child g hv hu
    have h2 := mult_pos_lt_len g hu
    omega

theorem popSum_nil (g : List Object) (x : Nat) : popSum g [] x = 0 := rfl

theorem popSum_append_one (g : List Object) (P : List Nat) (u x : Nat) :
    popSum g (P ++ [u]) x = popSum g P x + mult g u x := by
  simp [popSum]

theorem popSum_finset (g : List Object) {P : List Nat} (hn : P.Nodup) (x : Nat) :
    popSum g P x = ∑ u ∈ P.toFinset, mult g u x :=
  (List.sum_toFinset _ hn).symm

theorem popSum_le_inDeg (g : List Object) {P : List Nat} (hn : P.Nodup)
    (hlt : ∀ u ∈ P, u < g.length) (x : Nat) : popSum g P x ≤ inDeg g x := by
  rw [popSum_finset g hn, inDeg_finset]
  apply Finset.sum_le_sum_of_subset
  intro u hu
  rw [List.mem_toFinset] at hu
  exact Finset.mem_range.mpr (hlt u hu)

theorem popSum_add_mult_le (g : List Object) {P : List Nat} {next : Nat}
    (hn : P.Nodup) (hlt : ∀ u ∈ P, u < g.length) (hnm : next ∉ P) (x : Nat) :
    popSum g P x + mult g next x ≤ inDeg g x := by
  rcases Nat.eq_zero_or_pos (mult g next x) with h | h
  · rw [h]
    simpa using popSum_le_inDeg g hn hlt x
  · have hnext : next < g.length := mult_pos_lt_len g h
    have hn2 : (P ++ [next]).Nodup := by
      rw [List.nodup_append]
      exact ⟨hn, List.nodup_singleton next, by
        intro a ha hb
        rw [List.mem_singleton] at hb
        exact hnm (hb ▸ ha)⟩
    have hlt2 : ∀ u ∈ P ++ [next], u < g.length := by
      intro u hu
      rcases List.mem_append.mp hu with h1 | h1
      · exact hlt u h1
      · rw [List.mem_singleton] at h1
        exact h1 ▸ hnext
    have := popSum_le_inDeg g hn2 hlt2 x
    rwa [popSum_append_one] at this

theorem fullPopSum_mem (g : List Object) {P : List Nat} {x u : Nat}
    (hn : P.Nodup) (hlt : ∀ v ∈ P, v < g.length)
    (hfull : popSum g P x = inDeg g x) (hm : 0 < mult g u x) : u ∈ P := by
  by_contra hu
  have h1 := popSum_add_mult_le g hn hlt hu x
  omega

theorem popSum_full_ge (g : List Object) {P : List Nat} {x : Nat} (hn : P.Nodup)
    (hall : ∀ u, 0 < mult g u x → u ∈ P) : inDeg g x ≤ popSum g P x := by
  rw [popSum_finset g hn, inDeg_finset]
  rw [← Finset.sum_filter_of_ne (p := fun u => 0 < mult g u x)
    (fun y _ hy => Nat.pos_of_ne_zero hy)]
  apply Finset.sum_le_sum_of_subset
  intro u hu
  rw [Finset.mem_filter] at hu
  rw [List.mem_toFinset]
  exact hall u hu.2

theorem nodup_length_le (P : List Nat) (n : Nat) (hn : P.Nodup)
    (hlt : ∀ x ∈ P, x < n) : P.length ≤ n := by
  have h1 : P.toFinset.card = P.length := List.toFinset_card_of_nodup hn
  have h2 : P.toFinset ⊆ Finset.range n := by
    intro u hu
    rw [List.mem_toFinset] at hu
    exact Finset.mem_range.mpr (hlt u hu)
  have h3 := Finset.card_le_card h2
  rw [h1, Finset.card_range] at h3
  exact h3

theorem nodup_missing_length_lt (P : List Nat) (n i : Nat) (hn : P.Nodup)
    (hlt : ∀ x ∈ P, x < n) (hi : i < n) (hni : i ∉ P) : P.length < n := by
  have h1 : P.toFinset.card = P.length := List.toFinset_card_of_nodup hn
  have h2 : P.toFinset ⊆ (Finset.range n).erase i := by
    intro u hu
    rw [List.mem_toFinset] at hu
    rw [Finset.mem_erase]
    exact ⟨fun he => hni (he ▸ hu), Finset.mem_range.mpr (hlt u hu)⟩
  have h3 := Finset.card_le_card h2
  rw [h1, Finset.card_erase_of_mem (Finset.mem_range.mpr hi), Finset.card_range] at h3
  omega

theorem nodup_complete_length (P : List Nat) (n : Nat) (hn : P.Nodup)
    (hlt : ∀ x ∈ P, x < n) (hc : ∀ x, x < n → x ∈ P) : P.length = n := by
  refine le_antisymm (nodup_length_le P n hn hlt) ?_
  have h1 : P.toFinset.card = P.length := List.toFinset_card_of_nodup hn
  have h2 : Finset.range n ⊆ P.toFinset := by
    intro u hu
    rw [List.mem_toFinset]
    exact hc u (Finset.mem_range.mp hu)
  have h3 := Finset.card_le_card h2
  rw [h1, Finset.card_range] at h3
  exact h3

/- ----------------------------------------------------------------
   Helper lemmas: processLinks
   ---------------------------------------------------------------- -/

theorem hbDec_eq (n : Nat) (h1 : 1 ≤ n) (h2 : n < 4294967296) : hbDec n = n - 1 := by
  unfold hbDec
  rw [Nat.mod_eq_of_lt h2, if_neg (by omega)]

theorem occL_nil (x : Nat) : occL [] x = 0 := rfl

theorem occL_cons (l : Link) (rest : List Link) (x : Nat) :
    occL (l :: rest) x = occL rest x + (if l.objidx = x then 1 else 0) := by
  simp [occL, List.countP_cons]

theorem occL_eq_mult (g : List Object) (u x : Nat) :
    occL (linksOf g u) x = mult g u x := rfl

theorem processLinks_cons (enq : Nat → List Nat → List Nat) (l : Link)
    (rest : List Link) (counts : Nat → Nat) (queue : List Nat) :
    processLinks enq (l :: rest) counts queue =
      processLinks enq rest
        (fun x => if x = l.objidx then hbDec (counts l.objidx) else counts x)
        (if hbDec (counts l.objidx) = 0 then enq l.objidx queue else queue) := rfl

theorem processLinks_spec (enq : Nat → List Nat → List Nat)
    (henq : ∀ x q y, y ∈ enq x q ↔ y = x ∨ y ∈ q)
    (henqN : ∀ x q, q.Nodup → x ∉ q → (enq x q).Nodup) :
    ∀ (ls : List Link) (counts : Nat → Nat) (queue : List Nat),
      (∀ x, occL ls x ≤ counts x) →
      (∀ x, counts x < 4294967296) →
      (∀ y ∈ queue, counts y = 0) →
      (∀ x, (processLinks enq ls counts queue).1 x = counts x - occL ls x) ∧
      (∀ y, y ∈ (processLinks enq ls counts queue).2 ↔
        y ∈ queue ∨ (0 < counts y ∧ occL ls y = counts y)) ∧
      (queue.Nodup → (processLinks enq ls counts queue).2.Nodup) := by
  intro ls
  induction ls with
  | nil =>
    intro counts queue ho hb hqz
    refine ⟨fun x => by simp [processLinks, occL_nil], fun y => ?_, fun h => h⟩
    simp only [processLinks, occL_nil]
    constructor
    · intro h; exact Or.inl h
    · intro h
      rcases h with h | h
      · exact h
      · omega
  | cons l rest ih =>
    intro counts queue ho hb hqz
    have hocc1 : occL (l :: rest) l.objidx = occL rest l.objidx + 1 := by
      rw [occL_cons]; simp
    have hoccne : ∀ y, y ≠ l.objidx → occL (l :: rest) y = occL rest y := by
      intro y hy
      rw [occL_cons, if_neg (fun he => hy he.symm)]
      omega
    have hc1 : 1 ≤ counts l.objidx := by
      have h3 := ho l.objidx
      omega
    have hdec : hbDec (counts l.objidx) = counts l.objidx - 1 :=
      hbDec_eq _ hc1 (hb _)
    have hnq : l.objidx ∉ queue := fun hm => by
      have h3 := hqz _ hm
      omega
    rw [processLinks_cons, hdec]
    have hc2at : (fun x => if x = l.objidx then counts l.objidx - 1 else counts x)
        l.objidx = counts l.objidx - 1 := by simp
    have hc2ne : ∀ x, x ≠ l.objidx →
        (fun x => if x = l.objidx then counts l.objidx - 1 else counts x) x
          = counts x := by
      intro x hx; simp [hx]
    have ho2 : ∀ x, occL rest x ≤
        (fun x => if x = l.objidx then counts l.objidx - 1 else counts x) x := by
      intro x
      by_cases hx : x = l.objidx
      · rw [hx, hc2at]
        have h3 := ho l.objidx
        omega
      · rw [hc2ne x hx]
        have h3 := ho x
        rw [hoccne x hx] at h3
        exact h3
    have hb2 : ∀ x,
        (fun x => if x = l.objidx then counts l.objidx - 1 else counts x) x
          < 4294967296 := by
      intro x
      by_cases hx : x = l.objidx
      · rw [hx, hc2at]
        have h3 := hb l.objidx
        omega
      · rw [hc2ne x hx]
        exact hb x
    have hqz2 : ∀ y ∈ (if counts l.objidx - 1 = 0 then enq l.objidx queue else queue),
        (fun x => if x = l.objidx then counts l.objidx - 1 else counts x) y = 0 := by
      intro y hy
      by_cases hz : counts l.objidx - 1 = 0
      · rw [if_pos hz] at hy
        rcases (henq l.objidx queue y).mp hy with h1 | h1
        · rw [h1, hc2at, hz]
        · have h3 := hqz y h1
          by_cases hyl : y = l.objidx
          · rw [hyl, hc2at, hz]
          · rw [hc2ne y hyl]
            exact h3
      · rw [if_neg hz] at hy
        have h3 := hqz y hy
        by_cases hyl : y = l.objidx
        · rw [hyl] at h3
          omega
        · rw [hc2ne y hyl]
          exact h3
    obtain ⟨A2, B2, C2⟩ := ih
      (fun x => if x = l.objidx then counts l.objidx - 1 else counts x)
      (if counts l.objidx - 1 = 0 then enq l.objidx queue else queue)
      ho2 hb2 hqz2
    refine ⟨?_, ?_, ?_⟩
    · intro x
      rw [A2 x]
      by_cases hx : x = l.objidx
      · subst hx
        rw [if_pos rfl, hocc1]
        have h3 := ho l.objidx
        rw [hocc1] at h3
        omega
      · rw [if_neg hx, hoccne x hx]
    · intro y
      rw [B2 y]
      by_cases hyl : y = l.objidx
      · subst hyl
        rw [if_pos rfl]
        by_cases hz : counts l.objidx - 1 = 0
        · rw [if_pos hz]
          have ha2 := ho l.objidx
          rw [hocc1] at ha2
          constructor
          · intro hh
            refine Or.inr ⟨by omega, ?_⟩
            rw [hocc1]
            omega
          · intro hh
            exact Or.inl ((henq l.objidx queue l.objidx).mpr (Or.inl rfl))
        · rw [if_neg hz]
          simp only [iff_false_intro hnq, false_or]
          constructor
          · rintro ⟨h1, h2⟩
            refine ⟨by omega, ?_⟩
            rw [hocc1]
            omega
          · rintro ⟨h1, h2⟩
            rw [hocc1] at h2
            exact ⟨by omega, by omega⟩
      · rw [if_neg hyl, hoccne y hyl]
        by_cases hz : counts l.objidx - 1 = 0
        · rw [if_pos hz]
          constructor
          · intro hh
            rcases hh with hh | hh
            · rcases (henq l.objidx queue y).mp hh with h1 | h1
              · exact absurd h1 hyl
              · exact Or.inl h1
            · exact Or.inr hh
          · intro hh
            rcases hh with hh | hh
            · exact Or.inl ((henq l.objidx queue y).mpr (Or.inr hh))
            · exact Or.inr hh
        · rw [if_neg hz]
    · intro hnd
      apply C2
      by_cases hz : counts l.objidx - 1 = 0
      · rw [if_pos hz]
        exact henqN l.objidx queue hnd hnq
      · rw [if_neg hz]
        exact hnd

/- ----------------------------------------------------------------
   Helper lemmas: the loop invariant
   ---------------------------------------------------------------- -/

theorem queue_counts_zero (g : List Object) (hv : validGraph g)
    {queue popped : List Nat} {counts : Nat → Nat}
    (inv : SortInv g queue popped counts) :
    ∀ y ∈ queue, counts y = 0 := by
  intro y hy
  rcases inv.degU y (Or.inr hy) with h | ⟨hpos, heq⟩
  · subst h
    rw [inv.cnt _, inDeg_root_zero g hv]
    omega
  · rw [inv.cnt y, heq]
    omega

theorem sortInv_init (g : List Object) (hv : validGraph g) (hl : smallLinks g)
    (h2 : 2 ≤ g.length) :
    SortInv g [g.length - 1] [] (incoming_edge_count g) := by
  refine ⟨List.nodup_nil, List.nodup_singleton _, ?_, ?_, ?_, ?_, ?_, ?_, ?_, ?_, ?_, ?_⟩
  · intro x hx
    exact List.not_mem_nil x
  · intro x hx
    exact absurd hx (List.not_mem_nil x)
  · intro x hx
    rw [List.mem_singleton] at hx
    subst hx
    omega
  · intro x hx
    exact absurd hx (List.not_mem_nil x)
  · intro x hx
    rw [List.mem_singleton] at hx
    subst hx
    exact Reaches.root
  · exact Or.inr (List.mem_singleton_self _)
  · intro x hx
    rcases hx with hx | hx
    · exact absurd hx (List.not_mem_nil x)
    · rw [List.mem_singleton] at hx
      exact Or.inl hx
  · intro x hx hp hq
    rcases Nat.eq_zero_or_pos (inDeg g x) with h | h
    · exact Or.inr h
    · exact Or.inl (by rw [popSum_nil]; exact h)
  · intro x hx
    exact absurd hx (List.not_mem_nil x)
  · intro x
    rw [incoming_edge_count_eq g hl x, popSum_nil]
    omega

theorem sortInv_step (g : List Object) (hv : validGraph g) (hl : smallLinks g)
    (enq : Nat → List Nat → List Nat)
    (henq : ∀ x q y, y ∈ enq x q ↔ y = x ∨ y ∈ q)
    (henqN : ∀ x q, q.Nodup → x ∉ q → (enq x q).Nodup)
    (queue popped : List Nat) (counts : Nat → Nat) (next : Nat)
    (inv : SortInv g queue popped counts) (hnext : next ∈ queue) :
    SortInv g (processLinks enq (linksOf g next) counts (queue.erase next)).2
      (popped ++ [next]) (processLinks enq (linksOf g next) counts (queue.erase next)).1 := by
  have hnlen : next < g.length := inv.ltQ next hnext
  have hnp : next ∉ popped := inv.disj next hnext
  have ho : ∀ x, occL (linksOf g next) x ≤ counts x := by
    intro x
    rw [occL_eq_mult, inv.cnt x]
    have h4 := popSum_add_mult_le g inv.nodupP inv.ltP hnp x
    omega
  have hb : ∀ x, counts x < 4294967296 := by
    intro x
    rw [inv.cnt x]
    have h4 := inDeg_le_totalLinks g x
    have h5 : totalLinks g < 4294967296 := hl
    omega
  have herase : ∀ y, y ∈ queue.erase next ↔ y ≠ next ∧ y ∈ queue :=
    fun y => List.Nodup.mem_erase_iff inv.nodupQ
  have hqzero := queue_counts_zero g hv inv
  have hqz : ∀ y ∈ queue.erase next, counts y = 0 := by
    intro y hy
    exact hqzero y ((herase y).mp hy).2
  obtain ⟨A, B, C⟩ := processLinks_spec enq henq henqN (linksOf g next) counts
    (queue.erase next) ho hb hqz
  have hps : ∀ x, popSum g (popped ++ [next]) x = popSum g popped x + mult g next x :=
    fun x => popSum_append_one g popped next x
  have hnodupP2 : (popped ++ [next]).Nodup := by
    rw [List.nodup_append]
    refine ⟨inv.nodupP, List.nodup_singleton _, ?_⟩
    intro a ha hb2
    rw [List.mem_singleton] at hb2
    exact hnp (hb2 ▸ ha)
  have hltP2 : ∀ x ∈ popped ++ [next], x < g.length := by
    intro x hx
    rcases List.mem_append.mp hx with h | h
    · exact inv.ltP x h
    · rw [List.mem_singleton] at h
      exact h ▸ hnlen
  have hple : ∀ x, popSum g (popped ++ [next]) x ≤ inDeg g x :=
    popSum_le_inDeg g hnodupP2 hltP2
  have hpleOld : ∀ x, popSum g popped x ≤ inDeg g x :=
    popSum_le_inDeg g inv.nodupP inv.ltP
  have hmemP2 : ∀ y, y ∈ popped ++ [next] ↔ y ∈ popped ∨ y = next := by
    intro y
    rw [List.mem_append, List.mem_singleton]
  have hnewcond : ∀ y, 0 < counts y → mult g next y = counts y →
      y ∉ popped ∧ y ∉ queue ∧ y ≠ next ∧
      popSum g (popped ++ [next]) y = inDeg g y ∧ 0 < inDeg g y ∧
      0 < mult g next y ∧ y < next := by
    intro y hpos heq
    have hcy := inv.cnt y
    have hunion : y ∉ popped ∧ y ∉ queue := by
      by_contra hc
      have hor : y ∈ popped ∨ y ∈ queue := by tauto
      rcases inv.degU y hor with h | ⟨hd1, hd2⟩
      · subst h
        rw [inDeg_root_zero g hv] at hcy
        omega
      · omega
    have hyn : y ≠ next := fun he => hunion.2 (he ▸ hnext)
    have hmy : 0 < mult g next y := by omega
    refine ⟨hunion.1, hunion.2, hyn, ?_, by omega, hmy, mult_pos_child g hv hmy⟩
    rw [hps y]
    have := hpleOld y
    omega
  have hmnn : mult g next next = 0 := by
    rcases Nat.eq_zero_or_pos (mult g next next) with h | h
    · exact h
    · exact absurd (mult_pos_child g hv h) (lt_irrefl next)
  refine ⟨hnodupP2, C (List.Nodup.erase next inv.nodupQ), ?_, hltP2, ?_, ?_, ?_, ?_, ?_, ?_, ?_, ?_⟩
  · -- disj
    intro y hy
    rw [hmemP2 y]
    rcases (B y).mp hy with h | ⟨hpos, heq⟩
    · have h2 := (herase y).mp h
      push_neg
      exact ⟨inv.disj y h2.2, h2.1⟩
    · rw [occL_eq_mult] at heq
      have h3 := hnewcond y hpos heq
      push_neg
      exact ⟨h3.1, h3.2.2.1⟩
  · -- ltQ
    intro y hy
    rcases (B y).mp hy with h | ⟨hpos, heq⟩
    · exact inv.ltQ y ((herase y).mp h).2
    · rw [occL_eq_mult] at heq
      have h3 := hnewcond y hpos heq
      omega
  · -- reachP
    intro x hx
    rcases (hmemP2 x).mp hx with h | h
    · exact inv.reachP x h
    · exact h ▸ inv.reachQ next hnext
  · -- reachQ
    intro y hy
    rcases (B y).mp hy with h | ⟨hpos, heq⟩
    · exact inv.reachQ y ((herase y).mp h).2
    · rw [occL_eq_mult] at heq
      have h3 := hnewcond y hpos heq
      obtain ⟨l, hlm, hle⟩ := link_of_mult_pos g h3.2.2.2.2.2.1
      exact Reaches.step (inv.reachQ next hnext) ⟨l, hlm, hle⟩
  · -- rootIn
    rcases inv.rootIn with h | h
    · exact Or.inl ((hmemP2 _).mpr (Or.inl h))
    · by_cases hr : g.length - 1 = next
      · exact Or.inl ((hmemP2 _).mpr (Or.inr hr))
      · refine Or.inr ((B _).mpr (Or.inl ?_))
        exact (herase _).mpr ⟨hr, h⟩
  · -- degU
    intro x hx
    have hcase : x ∈ popped ∨ x = next ∨ (x ≠ next ∧ x ∈ queue) ∨
        (0 < counts x ∧ mult g next x = counts x) := by
      rcases hx with h | h
      · rcases (hmemP2 x).mp h with h1 | h1
        · exact Or.inl h1
        · exact Or.inr (Or.inl h1)
      · rcases (B x).mp h with h1 | ⟨h1, h2⟩
        · exact Or.inr (Or.inr (Or.inl ((herase x).mp h1)))
        · rw [occL_eq_mult] at h2
          exact Or.inr (Or.inr (Or.inr ⟨h1, h2⟩))
    rcases hcase with h | h | h | h
    · rcases inv.degU x (Or.inl h) with h1 | ⟨h1, h2⟩
      · exact Or.inl h1
      · refine Or.inr ⟨h1, ?_⟩
        have h3 := hple x
        have h6 := hps x
        omega
    · subst h
      rcases inv.degU x (Or.inr hnext) with h1 | ⟨h1, h2⟩
      · exact Or.inl h1
      · refine Or.inr ⟨h1, ?_⟩
        have h6 := hps x
        rw [hmnn] at h6
        omega
    · rcases inv.degU x (Or.inr h.2) with h1 | ⟨h1, h2⟩
      · exact Or.inl h1
      · refine Or.inr ⟨h1, ?_⟩
        have h3 := hple x
        have h6 := hps x
        omega
    · have h3 := hnewcond x h.1 h.2
      exact Or.inr ⟨h3.2.2.2.2.1, h3.2.2.2.1⟩
  · -- notIn
    intro x hx hp2 hq2
    have hxp : x ∉ popped := fun hc => hp2 ((hmemP2 x).mpr (Or.inl hc))
    have hxn : x ≠ next := fun hc => hp2 ((hmemP2 x).mpr (Or.inr hc))
    have hxq : x ∉ queue := by
      intro hc
      exact hq2 ((B x).mpr (Or.inl ((herase x).mpr ⟨hxn, hc⟩)))
    rcases inv.notIn x hx hxp hxq with h | h
    · left
      have hnc : ¬ (0 < counts x ∧ occL (linksOf g next) x = counts x) := by
        intro hc
        exact hq2 ((B x).mpr (Or.inr hc))
      rw [occL_eq_mult, inv.cnt x] at hnc
      have h4 := popSum_add_mult_le g inv.nodupP inv.ltP hnp x
      have h5 : mult g next x ≠ inDeg g x - popSum g popped x := by
        intro hc
        exact hnc ⟨by omega, hc⟩
      have h6 := hps x
      omega
    · exact Or.inr h
  · -- ord
    intro x hx u hmu
    rcases (hmemP2 x).mp hx with h | h
    · obtain ⟨ju, jx, hju, hjx, hlt⟩ := inv.ord x h u hmu
      have humem := firstPos_mem popped u ju hju
      have hxmem := firstPos_mem popped x jx hjx
      exact ⟨ju, jx, by rw [firstPos_append_left popped [next] u humem]; exact hju,
        by rw [firstPos_append_left popped [next] x hxmem]; exact hjx, hlt⟩
    · subst h
      rcases inv.degU x (Or.inr hnext) with h1 | ⟨h1, h2⟩
      · exfalso
        have h3 := mult_le_inDeg g x (mult_pos_lt_len g hmu)
        have h4 : inDeg g x = 0 := by
          rw [h1]
          exact inDeg_root_zero g hv
        omega
      · have humem := fullPopSum_mem g inv.nodupP inv.ltP h2 hmu
        obtain ⟨ju, hju⟩ := mem_firstPos popped u humem
        refine ⟨ju, popped.length, ?_, ?_, firstPos_lt_length popped u ju hju⟩
        · rw [firstPos_append_left popped [x] u humem]
          exact hju
        · rw [firstPos_append_right popped [x] x hnp]
          rw [firstPos_cons_self x x [] rfl]
          simp
  · -- cnt
    intro x
    rw [A x, occL_eq_mult, inv.cnt x, hps x]
    have h4 := popSum_add_mult_le g inv.nodupP inv.ltP hnp x
    omega

/- ----------------------------------------------------------------
   Helper lemmas: running the sorting loop
   ---------------------------------------------------------------- -/

theorem sortLoop_nil (g : List Object) (deq : List Nat → Option Nat)
    (enq : Nat → List Nat → List Nat) (fuel : Nat) (counts : Nat → Nat)
    (popped : List Nat) :
    sortLoop g deq enq fuel [] counts popped = .ok popped := by
  cases fuel <;> rfl

theorem sortLoop_succ (g : List Object) (deq : List Nat → Option Nat)
    (enq : Nat → List Nat → List Nat) (fuel a : Nat) (t : List Nat)
    (counts : Nat → Nat) (popped : List Nat) :
    sortLoop g deq enq (fuel + 1) (a :: t) counts popped =
      match deq (a :: t) with
      | none => .error .graphStructure
      | some next =>
        sortLoop g deq enq fuel
          (processLinks enq (linksOf g next) counts ((a :: t).erase next)).2
          (processLinks enq (linksOf g next) counts ((a :: t).erase next)).1
          (popped ++ [next]) := rfl

theorem sortLoop_run (g : List Object) (hv : validGraph g) (hl : smallLinks g)
    (deq : List Nat → Option Nat) (enq : Nat → List Nat → List Nat)
    (hdeq : ∀ q : List Nat, (∀ x ∈ q, x < g.length) → q ≠ [] →
      ∃ x, deq q = some x ∧ x ∈ q)
    (henq : ∀ x q y, y ∈ enq x q ↔ y = x ∨ y ∈ q)
    (henqN : ∀ x q, q.Nodup → x ∉ q → (enq x q).Nodup) :
    ∀ (fuel : Nat) (queue : List Nat) (counts : Nat → Nat) (popped : List Nat),
      SortInv g queue popped counts →
      g.length < fuel + popped.length →
      ∃ pf cf, sortLoop g deq enq fuel queue counts popped = .ok pf ∧
        (∃ ext, pf = popped ++ ext) ∧ SortInv g [] pf cf := by
  intro fuel
  induction fuel with
  | zero =>
    intro queue counts popped inv hfuel
    exfalso
    have h1 := nodup_length_le popped g.length inv.nodupP inv.ltP
    omega
  | succ m ih =>
    intro queue counts popped inv hfuel
    cases queue with
    | nil =>
      exact ⟨popped, counts, sortLoop_nil g deq enq (m + 1) counts popped,
        ⟨[], (List.append_nil popped).symm⟩, inv⟩
    | cons a t =>
      obtain ⟨next, hdq, hmem⟩ := hdeq (a :: t) inv.ltQ (by simp)
      have inv2 := sortInv_step g hv hl enq henq henqN (a :: t) popped counts next inv hmem
      have hfuel2 : g.length < m + (popped ++ [next]).length := by
        rw [List.length_append, List.length_singleton]
        omega
      obtain ⟨pf, cf, hrun, ⟨ext, hext⟩, hfin⟩ := ih _ _ _ inv2 hfuel2
      refine ⟨pf, cf, ?_, ⟨[next] ++ ext, by rw [hext, List.append_assoc]⟩, hfin⟩
      rw [sortLoop_succ, hdq]
      exact hrun

theorem reaches_has_parent (g : List Object) {x : Nat} (hr : Reaches g x)
    (hx : x ≠ g.length - 1) : ∃ u, 0 < mult g u x := by
  cases hr with
  | root => exact absurd rfl hx
  | step h1 h2 =>
    obtain ⟨l, hl2, he⟩ := h2
    exact ⟨_, mult_pos_of_link g hl2 he⟩

theorem reaches_lt (g : List Object) (hv : validGraph g) {x : Nat}
    (h0 : 0 < g.length) (hr : Reaches g x) : x < g.length := by
  cases hr with
  | root => omega
  | step h1 h2 =>
    obtain ⟨l, hl2, he⟩ := h2
    have h3 := mult_pos_of_link g hl2 he
    have h4 := mult_pos_lt_len g h3
    have h5 := mult_pos_child g hv h3
    omega

theorem sortInv_complete (g : List Object) (hv : validGraph g) (hc : rootConnected g)
    {pf : List Nat} {cf : Nat → Nat} (inv : SortInv g [] pf cf) :
    ∀ x, x < g.length → x ∈ pf := by
  by_contra hcon
  push_neg at hcon
  obtain ⟨x0, hx0, hnx0⟩ := hcon
  have hS : ((Finset.range g.length).filter (fun y => y ∉ pf)).Nonempty :=
    ⟨x0, by rw [Finset.mem_filter, Finset.mem_range]; exact ⟨hx0, hnx0⟩⟩
  obtain ⟨m, hmlt, hmnp, hmax⟩ :
      ∃ m, m < g.length ∧ m ∉ pf ∧ ∀ u, u < g.length → u ∉ pf → u ≤ m := by
    refine ⟨((Finset.range g.length).filter (fun y => y ∉ pf)).max' hS, ?_, ?_, ?_⟩
    · have h1 := Finset.max'_mem _ hS
      rw [Finset.mem_filter, Finset.mem_range] at h1
      exact h1.1
    · have h1 := Finset.max'_mem _ hS
      rw [Finset.mem_filter, Finset.mem_range] at h1
      exact h1.2
    · intro u hu1 hu2
      exact Finset.le_max' _ u (by rw [Finset.mem_filter, Finset.mem_range]; exact ⟨hu1, hu2⟩)
  have hroot : g.length - 1 ∈ pf := by
    rcases inv.rootIn with h | h
    · exact h
    · exact absurd h (List.not_mem_nil _)
  have hmr : m ≠ g.length - 1 := fun he => hmnp (he ▸ hroot)
  rcases inv.notIn m hmlt hmnp (List.not_mem_nil _) with h | h
  · have hex : ∃ u, 0 < mult g u m ∧ u ∉ pf := by
      by_contra hc2
      push_neg at hc2
      have h3 := popSum_full_ge g inv.nodupP (fun u hu => hc2 u hu)
      omega
    obtain ⟨u, hmu, hup⟩ := hex
    have hul := mult_pos_lt_len g hmu
    have hmlt2 := mult_pos_child g hv hmu
    have h4 := hmax u hul hup
    omega
  · obtain ⟨u, hmu⟩ := reaches_has_parent g (hc m hmlt) hmr
    have h3 := mult_le_inDeg g m (mult_pos_lt_len g hmu)
    omega
